import Mathlib

/-!
Verification of `script/logfiles_check.py` from the dlsnode repository.

The script is an offline integrity tool for an append-only binary record
store.  We give a shallow embedding of its core components:

* the byte-level record scanner/validator `ConsistencyChecker.check_file`,
* the repairer `ConsistencyChecker.repair_file` and the rewrite-and-swap
  logic of `ConsistencyChecker.process_file`,
* the key-range resolver `ConsistencyChecker.get_range` (together with the
  semantics of Python's `str.split('/')` and `int(s, 16)`),
* the size-index codec (`Reader.read` / `Writer.write`), the generator
  (`Generator.process_file` / `generate`), the `SizeInfo` arithmetic and
  the auditor `SizeChecker.check`.

A file stream is modelled as the list of its remaining bytes; `fo.read(n)`
on a regular file returns `min n remaining` bytes and never raises, which is
modelled by `List.take` / `List.drop`.  `struct.unpack('Q', data)` succeeds
exactly when `data` has exactly 8 bytes and decodes them little-endian
(`'Q'` is a native-order unsigned 64-bit read; the machines this tool runs
on are little-endian x86-64).  Stateful loops are modelled as fuel-indexed
structural recursions (`stream length + 1` iterations always suffice, which
is proved where it matters); warnings printed to stderr carry no data flow
and are not modelled.
-/

/-- Little-endian digits of `n` in base 256, `k` bytes
(the layout produced by `struct.pack('Q', n)` for `k = 8`). -/
def le_bytes : Nat → Nat → List Nat
  | 0, _ => []
  | k+1, n => n % 256 :: le_bytes k (n / 256)

/-- `struct.unpack(size_t_fmt, data)[0]`: succeeds exactly when `data` is
8 bytes long, and decodes them as a little-endian unsigned 64-bit value. -/
def unpack_q (data : List Nat) : Option Nat :=
  if data.length = 8 then
    some (data.foldr (fun b acc => b + 256 * acc) 0)
  else none

/-- `struct.pack(size_t_fmt, v)`: 8 little-endian bytes for
`0 ≤ v < 2^64`, a `struct.error` (`none`) otherwise. -/
def pack_q (v : Int) : Option (List Nat) :=
  if 0 ≤ v ∧ v < 2^64 then some (le_bytes 8 v.toNat) else none

theorem le_bytes_length (k n : Nat) : (le_bytes k n).length = k := by
  induction k generalizing n with
  | zero => rfl
  | succ k ih => simp [le_bytes, ih]

theorem le_bytes_foldr (k n : Nat) :
    (le_bytes k n).foldr (fun b acc => b + 256 * acc) 0 = n % 256^k := by
  induction k generalizing n with
  | zero => simp [le_bytes, Nat.mod_one]
  | succ k ih =>
      simp only [le_bytes, List.foldr_cons, ih]
      rw [pow_succ, mul_comm (256^k) 256, Nat.mod_mul]

theorem unpack_le_bytes (n : Nat) (h : n < 2^64) :
    unpack_q (le_bytes 8 n) = some n := by
  rw [unpack_q, if_pos (le_bytes_length 8 n), le_bytes_foldr]
  have : (256:Nat)^8 = 2^64 := by norm_num
  rw [this, Nat.mod_eq_of_lt h]

theorem unpack_q_length {d : List Nat} {k : Nat} (h : unpack_q d = some k) :
    d.length = 8 := by
  by_cases hl : d.length = 8
  · exact hl
  · rw [unpack_q, if_neg hl] at h; cases h

theorem take_append_len {α : Type} (l₁ l₂ : List α) (n : Nat)
    (h : l₁.length = n) : (l₁ ++ l₂).take n = l₁ := by
  subst h; exact List.take_left l₁ l₂

theorem drop_append_len {α : Type} (l₁ l₂ : List α) (n : Nat)
    (h : l₁.length = n) : (l₁ ++ l₂).drop n = l₂ := by
  subst h; exact List.drop_left l₁ l₂

/-- The body of `ConsistencyChecker.check_file`'s `while True` loop,
fuel-indexed.  One iteration reads 8 bytes for the key (breaking if the
read returns no data), unpacks it (a short read fails to unpack: error,
retry at the now-exhausted stream), range-checks it (out of range: error,
the very next 8 bytes are tried as the next key), reads and unpacks the
8-byte length (short: error), then reads `length` value bytes — which on a
regular file always succeeds, returning at most `length` bytes — and counts
one valid record.  Returns `(records_read, errors)`. -/
def checkGo (min_key max_key : Nat) : Nat → List Nat → Nat × Nat
  | 0, _ => (0, 0)
  | fuel+1, s =>
    if s.take 8 = [] then (0, 0)
    else
      match unpack_q (s.take 8) with
      | none =>
          let p := checkGo min_key max_key fuel (s.drop 8)
          (p.1, p.2 + 1)
      | some key =>
          if key < min_key ∨ max_key < key then
            let p := checkGo min_key max_key fuel (s.drop 8)
            (p.1, p.2 + 1)
          else
            match unpack_q ((s.drop 8).take 8) with
            | none =>
                let p := checkGo min_key max_key fuel ((s.drop 8).drop 8)
                (p.1, p.2 + 1)
            | some len =>
                let p := checkGo min_key max_key fuel
                  (((s.drop 8).drop 8).drop len)
                (p.1 + 1, p.2)

/-- `ConsistencyChecker.check_file` on a stream holding the bytes of a
block file: `stream.length + 1` loop iterations always suffice. -/
def check_file (min_key max_key : Nat) (s : List Nat) : Nat × Nat :=
  checkGo min_key max_key (s.length + 1) s

theorem checkGo_fuel_congr (min_key max_key : Nat) :
    ∀ f₁ f₂ s, s.length < f₁ → s.length < f₂ →
      checkGo min_key max_key f₁ s = checkGo min_key max_key f₂ s := by
  intro f₁
  induction f₁ with
  | zero => intro f₂ s h₁; omega
  | succ f₁ ih =>
      intro f₂ s h₁ h₂
      match f₂, h₂ with
      | f₂+1, h₂ =>
        by_cases hs : s.take 8 = []
        · simp [checkGo, hs]
        · have hlen : 1 ≤ s.length := by
            rcases List.take_eq_nil_iff.not.mp hs with h
            rcases s with _ | ⟨a, t⟩
            · simp at hs
            · simp
          simp only [checkGo, if_neg hs]
          have h8 : (s.drop 8).length < f₁ ∧ (s.drop 8).length < f₂ := by
            simp only [List.length_drop]; omega
          have h16 : ∀ len, (((s.drop 8).drop 8).drop len).length < f₁ ∧
              (((s.drop 8).drop 8).drop len).length < f₂ := by
            intro len; simp only [List.length_drop]; omega
          cases unpack_q (s.take 8) with
          | none => dsimp only; rw [ih f₂ (s.drop 8) h8.1 h8.2]
          | some key =>
              dsimp only
              by_cases hk : key < min_key ∨ max_key < key
              · simp only [if_pos hk]
                rw [ih f₂ (s.drop 8) h8.1 h8.2]
              · simp only [if_neg hk]
                cases unpack_q ((s.drop 8).take 8) with
                | none =>
                    dsimp only
                    have h0 := h16 0
                    simp only [List.drop_zero] at h0
                    rw [ih f₂ ((s.drop 8).drop 8) h0.1 h0.2]
                | some len =>
                    dsimp only
                    rw [ih f₂ (((s.drop 8).drop 8).drop len)
                      (h16 len).1 (h16 len).2]

/-- One well-formed on-disk record: 8-byte little-endian key, 8-byte
little-endian length, then exactly `length` value bytes. -/
def encode_record (key : Nat) (value : List Nat) : List Nat :=
  le_bytes 8 key ++ (le_bytes 8 value.length ++ value)

/-- A well-formed block file: the records in sequence, nothing else. -/
def encode_file : List (Nat × List Nat) → List Nat
  | [] => []
  | r :: rs => encode_record r.1 r.2 ++ encode_file rs

theorem le_bytes_ne_nil (n : Nat) : le_bytes 8 n ≠ [] := by
  simp [le_bytes]

theorem checkGo_encode (min_key max_key : Nat) :
    ∀ (recs : List (Nat × List Nat)) (fuel : Nat),
      (∀ r ∈ recs, min_key ≤ r.1 ∧ r.1 ≤ max_key ∧
        r.1 < 2^64 ∧ r.2.length < 2^64) →
      (encode_file recs).length < fuel →
      checkGo min_key max_key fuel (encode_file recs) = (recs.length, 0) := by
  intro recs
  induction recs with
  | nil =>
      intro fuel h hf
      match fuel, hf with
      | fuel+1, _ => simp [checkGo, encode_file]
  | cons r rs ih =>
      intro fuel h hf
      obtain ⟨k, v⟩ := r
      have hk := h (k, v) (by simp)
      have hs : encode_file ((k, v) :: rs) =
          le_bytes 8 k ++ (le_bytes 8 v.length ++ (v ++ encode_file rs)) := by
        simp [encode_file, encode_record, List.append_assoc]
      have hlen : (encode_file ((k, v) :: rs)).length =
          16 + v.length + (encode_file rs).length := by
        rw [hs]; simp [le_bytes_length]; omega
      rw [hlen] at hf
      match fuel, hf with
      | fuel+1, hf =>
        rw [hs]
        have ht : (le_bytes 8 k ++
            (le_bytes 8 v.length ++ (v ++ encode_file rs))).take 8 =
            le_bytes 8 k := take_append_len _ _ _ (le_bytes_length 8 k)
        have hd : (le_bytes 8 k ++
            (le_bytes 8 v.length ++ (v ++ encode_file rs))).drop 8 =
            le_bytes 8 v.length ++ (v ++ encode_file rs) :=
          drop_append_len _ _ _ (le_bytes_length 8 k)
        have ht2 : (le_bytes 8 v.length ++ (v ++ encode_file rs)).take 8 =
            le_bytes 8 v.length := take_append_len _ _ _ (le_bytes_length 8 _)
        have hd2 : (le_bytes 8 v.length ++ (v ++ encode_file rs)).drop 8 =
            v ++ encode_file rs := drop_append_len _ _ _ (le_bytes_length 8 _)
        have hdv : (v ++ encode_file rs).drop v.length = encode_file rs :=
          drop_append_len _ _ _ rfl
        simp only [checkGo, ht, hd, ht2, hd2, hdv]
        rw [if_neg (le_bytes_ne_nil k), unpack_le_bytes k hk.2.2.1,
          unpack_le_bytes v.length hk.2.2.2]
        dsimp only
        rw [if_neg (by omega : ¬(k < min_key ∨ max_key < k))]
        rw [hdv, ih fuel (fun r hr => h r (List.mem_cons_of_mem _ hr)) (by omega)]
        simp

/-- C2: whenever the validator decodes a key outside
`[min_key, max_key]`, it increments the error counter, counts no valid
record, and consumes no further bytes in that iteration: the length and
value fields are not read, and the scan resumes with the 8 bytes
immediately after the key as the next candidate key. -/
theorem check_file_oor_step (min_key max_key : Nat) (s : List Nat) (key : Nat)
    (hkey : unpack_q (s.take 8) = some key)
    (hoor : key < min_key ∨ max_key < key) :
    check_file min_key max_key s =
      ((check_file min_key max_key (s.drop 8)).1,
       (check_file min_key max_key (s.drop 8)).2 + 1) := by
  have hlen8 : (s.take 8).length = 8 := unpack_q_length hkey
  have hslen : 8 ≤ s.length := by
    rcases le_or_lt 8 s.length with h | h
    · exact h
    · rw [List.length_take] at hlen8; omega
  have hne : s.take 8 ≠ [] := by
    intro h; rw [h] at hlen8; simp at hlen8
  show checkGo min_key max_key (s.length + 1) s = _
  conv_lhs => rw [checkGo]
  rw [if_neg hne, hkey]
  dsimp only
  rw [if_pos hoor]
  rw [checkGo_fuel_congr min_key max_key s.length ((s.drop 8).length + 1)
    (s.drop 8) (by simp [List.length_drop]; omega) (by omega)]
  rfl

/-- The body of `ConsistencyChecker.repair_file`'s loop, fuel-indexed.
Reads the same three-field layout as the validator; any decode exception
(short key or length read) and any out-of-range key silently skips the
record; a decoded in-range record's raw key, length and value byte
segments are written verbatim to the output.  Returns the output bytes
and `records_written`. -/
def repairGo (min_key max_key : Nat) : Nat → List Nat → List Nat × Nat
  | 0, _ => ([], 0)
  | fuel+1, s =>
    if s.take 8 = [] then ([], 0)
    else
      match unpack_q (s.take 8) with
      | none => repairGo min_key max_key fuel (s.drop 8)
      | some key =>
          if key < min_key ∨ max_key < key then
            repairGo min_key max_key fuel (s.drop 8)
          else
            match unpack_q ((s.drop 8).take 8) with
            | none => repairGo min_key max_key fuel ((s.drop 8).drop 8)
            | some len =>
                let p := repairGo min_key max_key fuel
                  (((s.drop 8).drop 8).drop len)
                (s.take 8 ++ (((s.drop 8).take 8) ++
                  ((((s.drop 8).drop 8).take len) ++ p.1)), p.2 + 1)

/-- `ConsistencyChecker.repair_file` on the bytes of a block file:
returns (bytes written to the replacement file, `records_written`). -/
def repair_file (min_key max_key : Nat) (s : List Nat) : List Nat × Nat :=
  repairGo min_key max_key (s.length + 1) s

/-- The records the repair scan keeps: the raw `(key bytes, length bytes,
value bytes)` segments, in stream order, of exactly those records that
decode successfully with an in-range key. -/
def repairScanGo (min_key max_key : Nat) :
    Nat → List Nat → List (List Nat × List Nat × List Nat)
  | 0, _ => []
  | fuel+1, s =>
    if s.take 8 = [] then []
    else
      match unpack_q (s.take 8) with
      | none => repairScanGo min_key max_key fuel (s.drop 8)
      | some key =>
          if key < min_key ∨ max_key < key then
            repairScanGo min_key max_key fuel (s.drop 8)
          else
            match unpack_q ((s.drop 8).take 8) with
            | none => repairScanGo min_key max_key fuel ((s.drop 8).drop 8)
            | some len =>
                (s.take 8, (s.drop 8).take 8, ((s.drop 8).drop 8).take len) ::
                  repairScanGo min_key max_key fuel (((s.drop 8).drop 8).drop len)

/-- The surviving records of a stream, as seen by the repair scan. -/
def surviving_records (min_key max_key : Nat) (s : List Nat) :
    List (List Nat × List Nat × List Nat) :=
  repairScanGo min_key max_key (s.length + 1) s

/-- Glue a list of raw record segments back into a byte stream. -/
def glue_segments (l : List (List Nat × List Nat × List Nat)) : List Nat :=
  l.foldr (fun t acc => t.1 ++ (t.2.1 ++ (t.2.2 ++ acc))) []

theorem repairGo_eq_scan (min_key max_key : Nat) :
    ∀ (fuel : Nat) (s : List Nat),
      repairGo min_key max_key fuel s =
        (glue_segments (repairScanGo min_key max_key fuel s),
         (repairScanGo min_key max_key fuel s).length) := by
  intro fuel
  induction fuel with
  | zero => intro s; rfl
  | succ fuel ih =>
      intro s
      by_cases hs : s.take 8 = []
      · simp [repairGo, repairScanGo, hs, glue_segments]
      · simp only [repairGo, repairScanGo, if_neg hs]
        cases unpack_q (s.take 8) with
        | none => exact ih (s.drop 8)
        | some key =>
            dsimp only
            by_cases hk : key < min_key ∨ max_key < key
            · simp only [if_pos hk]; exact ih (s.drop 8)
            · simp only [if_neg hk]
              cases unpack_q ((s.drop 8).take 8) with
              | none => exact ih ((s.drop 8).drop 8)
              | some len =>
                  dsimp only
                  rw [ih (((s.drop 8).drop 8).drop len)]
                  simp [glue_segments]

theorem repairGo_sublist (min_key max_key : Nat) :
    ∀ (fuel : Nat) (s : List Nat),
      List.Sublist (repairGo min_key max_key fuel s).1 s := by
  intro fuel
  induction fuel with
  | zero => intro s; exact List.nil_sublist s
  | succ fuel ih =>
      intro s
      by_cases hs : s.take 8 = []
      · simp [repairGo, hs]
      · simp only [repairGo, if_neg hs]
        cases unpack_q (s.take 8) with
        | none => exact (ih (s.drop 8)).trans (List.drop_sublist 8 s)
        | some key =>
            dsimp only
            by_cases hk : key < min_key ∨ max_key < key
            · simp only [if_pos hk]
              exact (ih (s.drop 8)).trans (List.drop_sublist 8 s)
            · simp only [if_neg hk]
              cases unpack_q ((s.drop 8).take 8) with
              | none =>
                  refine (ih ((s.drop 8).drop 8)).trans ?_
                  exact (List.drop_sublist 8 (s.drop 8)).trans
                    (List.drop_sublist 8 s)
              | some len =>
                  dsimp only
                  have hdd : (s.drop 8).drop 8 = s.drop 16 := by
                    rw [List.drop_drop]
                  have hchunk : s.take 8 ++ (((s.drop 8).take 8) ++
                      (((s.drop 8).drop 8).take len ++
                        (repairGo min_key max_key fuel
                          (((s.drop 8).drop 8).drop len)).1)) =
                      s.take (16 + len) ++
                        (repairGo min_key max_key fuel
                          ((s.drop 16).drop len)).1 := by
                    rw [hdd]
                    rw [show (16:Nat) + len = 8 + (8 + len) by omega]
                    rw [List.take_add, List.take_add, List.drop_drop,
                      List.append_assoc]
                    norm_num
                  rw [hchunk]
                  have := ih ((s.drop 16).drop len)
                  have h2 : List.Sublist ((s.drop 16).drop len)
                      (s.drop (16 + len)) := by
                    rw [List.drop_drop]
                  calc
                    List.Sublist (s.take (16 + len) ++
                        (repairGo min_key max_key fuel
                          ((s.drop 16).drop len)).1)
                      (s.take (16 + len) ++ s.drop (16 + len)) :=
                        (this.trans h2).append_left _
                    _ = s := by rw [List.take_append_drop]

theorem repairScanGo_mem (min_key max_key : Nat) :
    ∀ (fuel : Nat) (s : List Nat) (t : List Nat × List Nat × List Nat),
      t ∈ repairScanGo min_key max_key fuel s →
      ∃ k len, unpack_q t.1 = some k ∧ min_key ≤ k ∧ k ≤ max_key ∧
        unpack_q t.2.1 = some len := by
  intro fuel
  induction fuel with
  | zero => intro s t ht; simp [repairScanGo] at ht
  | succ fuel ih =>
      intro s t ht
      by_cases hs : s.take 8 = []
      · simp [repairScanGo, hs] at ht
      · simp only [repairScanGo, if_neg hs] at ht
        cases hq : unpack_q (s.take 8) with
        | none => rw [hq] at ht; exact ih (s.drop 8) t ht
        | some key =>
            rw [hq] at ht
            dsimp only at ht
            by_cases hk : key < min_key ∨ max_key < key
            · rw [if_pos hk] at ht; exact ih (s.drop 8) t ht
            · rw [if_neg hk] at ht
              cases hq2 : unpack_q ((s.drop 8).take 8) with
              | none => rw [hq2] at ht; exact ih ((s.drop 8).drop 8) t ht
              | some len =>
                  rw [hq2] at ht
                  dsimp only at ht
                  rcases List.mem_cons.mp ht with h | h
                  · subst h
                    exact ⟨key, len, hq, by omega, by omega, hq2⟩
                  · exact ih (((s.drop 8).drop 8).drop len) t h

/-- A flat-namespace filesystem: each name holds a byte content or is
absent. -/
def FileSys : Type := String → Option (List Nat)

/-- Creating/overwriting a file (`file(name, 'w')` followed by writes). -/
def fs_write (fs : FileSys) (name : String) (content : List Nat) : FileSys :=
  fun m => if m = name then some content else fs m

/-- `os.rename(src, dst)`: `dst` takes the content `src` had, `src` is
gone; contents are not touched. -/
def fs_rename (fs : FileSys) (src dst : String) : FileSys :=
  fun m => if m = dst then fs src else if m = src then none else fs m

/-- The repair path of `ConsistencyChecker.process_file` (taken when the
prior validation pass reported errors and `--repair` is set): write the
repaired stream to `<path>.repairing`, rename the original to
`<path>.broken`, rename `<path>.repairing` to `<path>`, and return
`records_written`. If the file is absent the `file(fname)` open raises;
that case is modelled as leaving the filesystem unchanged. -/
def process_file_repair (fs : FileSys) (fname : String)
    (min_key max_key : Nat) : FileSys × Nat :=
  match fs fname with
  | none => (fs, 0)
  | some content =>
      let rep := repair_file min_key max_key content
      let fs1 := fs_write fs (fname ++ ".repairing") rep.1
      let fs2 := fs_rename fs1 fname (fname ++ ".broken")
      let fs3 := fs_rename fs2 (fname ++ ".repairing") fname
      (fs3, rep.2)

theorem append_ne_of_length_pos (s t : String) (h : 0 < t.length) :
    s ++ t ≠ s := by
  intro he
  have := congrArg String.length he
  rw [String.length_append] at this
  omega

theorem append_ne_append_of_length_ne (s t u : String)
    (h : t.length ≠ u.length) : s ++ t ≠ s ++ u := by
  intro he
  have := congrArg String.length he
  rw [String.length_append, String.length_append] at this
  omega

/-- C3: whenever the repairer rewrites a block file, the replacement
content is exactly the concatenation, in original order, of the raw key,
length and value byte segments of the input records that decoded
successfully with an in-range key (an order-preserving subsequence of the
original bytes — nothing is added or reordered); the pre-repair content is
preserved unmodified under `<path>.broken`; and the repair pass returns
the count of records written. -/
theorem repair_rewrites_surviving_records
    (min_key max_key : Nat) (fs : FileSys) (fname : String)
    (content : List Nat) (h : fs fname = some content) :
    (process_file_repair fs fname min_key max_key).1 (fname ++ ".broken")
        = some content ∧
    (process_file_repair fs fname min_key max_key).1 fname
        = some (glue_segments (surviving_records min_key max_key content)) ∧
    List.Sublist (repair_file min_key max_key content).1 content ∧
    (process_file_repair fs fname min_key max_key).2
        = (surviving_records min_key max_key content).length ∧
    (∀ t ∈ surviving_records min_key max_key content,
      ∃ k len, unpack_q t.1 = some k ∧ min_key ≤ k ∧ k ≤ max_key ∧
        unpack_q t.2.1 = some len) := by
  have hb : fname ++ ".broken" ≠ fname :=
    append_ne_of_length_pos _ _ (by decide)
  have hr : fname ++ ".repairing" ≠ fname :=
    append_ne_of_length_pos _ _ (by decide)
  have hbr : fname ++ ".broken" ≠ fname ++ ".repairing" :=
    append_ne_append_of_length_ne _ _ _ (by decide)
  have hrb : fname ++ ".repairing" ≠ fname ++ ".broken" :=
    append_ne_append_of_length_ne _ _ _ (by decide)
  have heq := repairGo_eq_scan min_key max_key (content.length + 1) content
  refine ⟨?_, ?_, ?_, ?_, ?_⟩
  · unfold process_file_repair
    rw [h]
    dsimp only [fs_rename, fs_write]
    rw [if_neg hb, if_neg hbr, if_pos rfl, if_neg (Ne.symm hr), h]
  · unfold process_file_repair
    rw [h]
    dsimp only [fs_rename, fs_write]
    rw [if_pos rfl, if_neg hrb, if_neg hr, if_pos rfl]
    show some (repair_file min_key max_key content).1 = _
    unfold repair_file
    rw [heq]
    rfl
  · exact repairGo_sublist min_key max_key (content.length + 1) content
  · unfold process_file_repair
    rw [h]
    dsimp only
    show (repair_file min_key max_key content).2 = _
    unfold repair_file
    rw [heq]
    rfl
  · exact fun t ht =>
      repairScanGo_mem min_key max_key (content.length + 1) content t ht

/-- Witness for C3 at a concrete filesystem holding one block file `"f"`
whose single record has key 5 in range [0, 10]. -/
theorem repair_rewrites_surviving_records_witness :
    (process_file_repair
      (fun m => if m = "f" then some (le_bytes 8 5 ++ (le_bytes 8 1 ++ [9]))
                else none)
      "f" 0 10).1 ("f" ++ ".broken")
      = some (le_bytes 8 5 ++ (le_bytes 8 1 ++ [9])) :=
  (repair_rewrites_surviving_records 0 10 _ "f" _ rfl).1

theorem repairGo_nil (min_key max_key : Nat) :
    ∀ fuel, repairGo min_key max_key fuel [] = ([], 0) := by
  intro fuel
  cases fuel with
  | zero => rfl
  | succ fuel => simp [repairGo]

theorem repairGo_fuel_congr (min_key max_key : Nat) :
    ∀ f₁ f₂ s, s.length < f₁ → s.length < f₂ →
      repairGo min_key max_key f₁ s = repairGo min_key max_key f₂ s := by
  intro f₁
  induction f₁ with
  | zero => intro f₂ s h₁; omega
  | succ f₁ ih =>
      intro f₂ s h₁ h₂
      match f₂, h₂ with
      | f₂+1, h₂ =>
        by_cases hs : s.take 8 = []
        · simp [repairGo, hs]
        · have hlen : 1 ≤ s.length := by
            rcases s with _ | ⟨a, t⟩
            · simp at hs
            · simp
          simp only [repairGo, if_neg hs]
          have h8 : (s.drop 8).length < f₁ ∧ (s.drop 8).length < f₂ := by
            simp only [List.length_drop]; omega
          have h16 : ∀ len, (((s.drop 8).drop 8).drop len).length < f₁ ∧
              (((s.drop 8).drop 8).drop len).length < f₂ := by
            intro len; simp only [List.length_drop]; omega
          cases unpack_q (s.take 8) with
          | none => exact ih f₂ (s.drop 8) h8.1 h8.2
          | some key =>
              dsimp only
              by_cases hk : key < min_key ∨ max_key < key
              · simp only [if_pos hk]
                exact ih f₂ (s.drop 8) h8.1 h8.2
              · simp only [if_neg hk]
                cases unpack_q ((s.drop 8).take 8) with
                | none =>
                    have h0 := h16 0
                    simp only [List.drop_zero] at h0
                    exact ih f₂ ((s.drop 8).drop 8) h0.1 h0.2
                | some len =>
                    dsimp only
                    rw [ih f₂ (((s.drop 8).drop 8).drop len)
                      (h16 len).1 (h16 len).2]

theorem repairGo_encode_front (min_key max_key : Nat) :
    ∀ (recs : List (Nat × List Nat)) (fuel : Nat) (tail : List Nat),
      (∀ r ∈ recs, min_key ≤ r.1 ∧ r.1 ≤ max_key ∧
        r.1 < 2^64 ∧ r.2.length < 2^64) →
      (encode_file recs ++ tail).length < fuel →
      repairGo min_key max_key fuel (encode_file recs ++ tail) =
        (encode_file recs ++ (repair_file min_key max_key tail).1,
         (repair_file min_key max_key tail).2 + recs.length) := by
  intro recs
  induction recs with
  | nil =>
      intro fuel tail h hf
      simp only [encode_file, List.nil_append] at hf ⊢
      rw [repairGo_fuel_congr min_key max_key fuel (tail.length + 1) tail hf
        (Nat.lt_succ_self _)]
      rfl
  | cons r rs ih =>
      intro fuel tail h hf
      obtain ⟨k, v⟩ := r
      have hk := h (k, v) (by simp)
      have hs : encode_file ((k, v) :: rs) ++ tail =
          le_bytes 8 k ++ (le_bytes 8 v.length ++
            (v ++ (encode_file rs ++ tail))) := by
        simp [encode_file, encode_record, List.append_assoc]
      have hlen : (encode_file ((k, v) :: rs) ++ tail).length =
          16 + v.length + (encode_file rs ++ tail).length := by
        rw [hs]; simp [le_bytes_length]; omega
      rw [hlen] at hf
      match fuel, hf with
      | fuel+1, hf =>
        rw [hs]
        have ht : (le_bytes 8 k ++ (le_bytes 8 v.length ++
            (v ++ (encode_file rs ++ tail)))).take 8 =
            le_bytes 8 k := take_append_len _ _ _ (le_bytes_length 8 k)
        have hd : (le_bytes 8 k ++ (le_bytes 8 v.length ++
            (v ++ (encode_file rs ++ tail)))).drop 8 =
            le_bytes 8 v.length ++ (v ++ (encode_file rs ++ tail)) :=
          drop_append_len _ _ _ (le_bytes_length 8 k)
        have ht2 : (le_bytes 8 v.length ++
            (v ++ (encode_file rs ++ tail))).take 8 =
            le_bytes 8 v.length := take_append_len _ _ _ (le_bytes_length 8 _)
        have hd2 : (le_bytes 8 v.length ++
            (v ++ (encode_file rs ++ tail))).drop 8 =
            v ++ (encode_file rs ++ tail) :=
          drop_append_len _ _ _ (le_bytes_length 8 _)
        have htv : (v ++ (encode_file rs ++ tail)).take v.length = v :=
          take_append_len _ _ _ rfl
        have hdv : (v ++ (encode_file rs ++ tail)).drop v.length =
            encode_file rs ++ tail := drop_append_len _ _ _ rfl
        simp only [repairGo, ht, hd, ht2, hd2, htv, hdv]
        rw [if_neg (le_bytes_ne_nil k), unpack_le_bytes k hk.2.2.1,
          unpack_le_bytes v.length hk.2.2.2]
        dsimp only
        rw [if_neg (by omega : ¬(k < min_key ∨ max_key < k))]
        rw [htv, hdv]
        rw [ih fuel tail (fun r hr => h r (List.mem_cons_of_mem _ hr))
          (by omega)]
        simp only [encode_file, encode_record, List.append_assoc,
          List.length_cons, Nat.add_assoc]

/-- C10: when the input to the repairer ends with a record whose in-range
key and length field decode but whose declared length exceeds the bytes
remaining, the repairer writes that record's key bytes, its full length
field, and the shorter-than-declared value bytes, and counts it as
written: the repaired output is the whole input and `records_written`
counts the truncated final record. -/
theorem repair_keeps_truncated_final_record
    (min_key max_key : Nat) (recs : List (Nat × List Nat))
    (kb lb vb : List Nat) (k len : Nat)
    (hrecs : ∀ r ∈ recs, min_key ≤ r.1 ∧ r.1 ≤ max_key ∧
      r.1 < 2^64 ∧ r.2.length < 2^64)
    (hkb : unpack_q kb = some k)
    (hmin : min_key ≤ k) (hmax : k ≤ max_key)
    (hlb : unpack_q lb = some len)
    (hshort : vb.length < len) :
    repair_file min_key max_key (encode_file recs ++ (kb ++ (lb ++ vb))) =
      (encode_file recs ++ (kb ++ (lb ++ vb)), recs.length + 1) := by
  have htail : repair_file min_key max_key (kb ++ (lb ++ vb)) =
      (kb ++ (lb ++ vb), 1) := by
    have hkb8 := unpack_q_length hkb
    have hlb8 := unpack_q_length hlb
    have hne : (kb ++ (lb ++ vb)).take 8 ≠ [] := by
      rw [take_append_len _ _ _ hkb8]
      intro hc; rw [hc] at hkb8; simp at hkb8
    show repairGo min_key max_key ((kb ++ (lb ++ vb)).length + 1) _ = _
    simp only [repairGo, if_neg hne]
    rw [take_append_len _ _ _ hkb8, drop_append_len _ _ _ hkb8, hkb]
    dsimp only
    rw [if_neg (by omega : ¬(k < min_key ∨ max_key < k))]
    rw [take_append_len _ _ _ hlb8, drop_append_len _ _ _ hlb8, hlb]
    dsimp only
    rw [List.take_of_length_le (by omega : vb.length ≤ len),
      List.drop_eq_nil_of_le (by omega : vb.length ≤ len),
      repairGo_nil]
    simp
  rw [show repair_file min_key max_key
        (encode_file recs ++ (kb ++ (lb ++ vb))) =
      repairGo min_key max_key
        ((encode_file recs ++ (kb ++ (lb ++ vb))).length + 1)
        (encode_file recs ++ (kb ++ (lb ++ vb))) from rfl]
  rw [repairGo_encode_front min_key max_key recs _ (kb ++ (lb ++ vb)) hrecs
    (Nat.lt_succ_self _), htail]
  simp [Nat.add_comm]

/-- Witness for C10: one valid record with key 5, then a truncated final
record with in-range key 7 whose length field declares 99 bytes but only
3 value bytes remain; the repairer keeps everything and counts 2 records. -/
theorem repair_keeps_truncated_final_record_witness :
    repair_file 0 100 (encode_file [(5, [1, 2])] ++
        (le_bytes 8 7 ++ (le_bytes 8 99 ++ [4, 5, 6]))) =
      (encode_file [(5, [1, 2])] ++
        (le_bytes 8 7 ++ (le_bytes 8 99 ++ [4, 5, 6])), 2) :=
  repair_keeps_truncated_final_record 0 100 [(5, [1, 2])]
    (le_bytes 8 7) (le_bytes 8 99) [4, 5, 6] 7 99
    (by decide) (by decide) (by decide) (by decide) (by decide) (by decide)

/-- Witness for C2: key 99 is out of range [0, 10]; one error, no record,
and the scan continues at the 8 bytes after the key. -/
theorem check_file_oor_step_witness :
    check_file 0 10 (le_bytes 8 99 ++ (le_bytes 8 5 ++ [7, 7])) =
      ((check_file 0 10
          ((le_bytes 8 99 ++ (le_bytes 8 5 ++ [7, 7])).drop 8)).1,
       (check_file 0 10
          ((le_bytes 8 99 ++ (le_bytes 8 5 ++ [7, 7])).drop 8)).2 + 1) :=
  check_file_oor_step 0 10 _ 99 (by decide) (by decide)

/-- C1: for every well-formed block file — `N` records, each an 8-byte
key, an 8-byte length, and exactly `length` value bytes, every key inside
`[min_key, max_key]` — the validator returns `records_read = N` and
`errors = 0`. -/
theorem check_file_wellformed (min_key max_key : Nat)
    (recs : List (Nat × List Nat))
    (h : ∀ r ∈ recs, min_key ≤ r.1 ∧ r.1 ≤ max_key ∧
      r.1 < 2^64 ∧ r.2.length < 2^64) :
    check_file min_key max_key (encode_file recs) = (recs.length, 0) :=
  checkGo_encode min_key max_key recs _ h (Nat.lt_succ_self _)

/-- Witness for C1 on the block file `0000000052/125`: the derived range
is `[0x52125000, 0x52125fff]` and two records with keys at the range ends
validate as `records_read = 2, errors = 0`. -/
theorem check_file_wellformed_witness :
    check_file 0x52125000 0x52125fff
      (encode_file [(0x52125000, [1, 2]), (0x52125fff, [])]) = (2, 0) :=
  check_file_wellformed 0x52125000 0x52125fff _ (by decide)

/-- C4 is a code bug: for a record whose in-range key and length decode
but whose value is truncated (here `length = 10` declared with only 3
value bytes remaining), `fo.read(length)` returns the short value without
raising, so the handler that would warn and count an error is
unreachable: the validator counts the truncated record as valid and
reports no error, where the claim (and the code's own `except` branch)
intend one error and no valid record. -/
theorem check_file_truncated_value_counted :
    check_file 0 10 (le_bytes 8 5 ++ (le_bytes 8 10 ++ [1, 2, 3])) =
      (1, 0) := by
  decide

/-- `SizeInfo`: the per-channel aggregate.  Python integers are unbounded
and subtraction may go negative, so the fields are `Int`. -/
structure SizeInfo where
  size : Int
  records : Int
deriving DecidableEq

/-- `SizeInfo.__init__`: both fields start at 0. -/
def sizeinfo_zero : SizeInfo := ⟨0, 0⟩

/-- `SizeInfo.__eq__`: component-wise comparison, `size` then `records`. -/
def sizeinfo_eq (a b : SizeInfo) : Bool :=
  a.size == b.size && a.records == b.records

/-- `SizeInfo.__add__`: component-wise sum. -/
def sizeinfo_add (a b : SizeInfo) : SizeInfo :=
  ⟨a.size + b.size, a.records + b.records⟩

/-- `SizeInfo.__sub__`: component-wise difference. -/
def sizeinfo_sub (a b : SizeInfo) : SizeInfo :=
  ⟨a.size - b.size, a.records - b.records⟩

/-- `Writer.write`: pack `records` then `size` as two unsigned 64-bit
fields; `none` models the `struct.error` raised for an out-of-range
field. -/
def writer_write (info : SizeInfo) : Option (List Nat) :=
  match pack_q info.records with
  | none => none
  | some a =>
      match pack_q info.size with
      | none => none
      | some b => some (a ++ b)

/-- `Reader.read`: read and unpack 8 bytes for `records`, then 8 bytes for
`size`; `none` models the uncaught `struct.error` on a short file. -/
def reader_read (s : List Nat) : Option SizeInfo :=
  match unpack_q (s.take 8) with
  | none => none
  | some r =>
      match unpack_q ((s.drop 8).take 8) with
      | none => none
      | some sz => some ⟨(sz : Int), (r : Int)⟩

/-- C6: for all `r, s < 2^64`, writing `SizeInfo(records=r, size=s)` with
the codec produces a 16-byte sidecar laid out as the 8-byte `records`
field followed by the 8-byte `size` field, and reading those bytes back
yields the original `SizeInfo`. -/
theorem sizeinfo_codec_roundtrip (r s : Nat)
    (hr : r < 2^64) (hs : s < 2^64) :
    writer_write ⟨(s : Int), (r : Int)⟩ =
      some (le_bytes 8 r ++ le_bytes 8 s) ∧
    (le_bytes 8 r ++ le_bytes 8 s).length = 16 ∧
    reader_read (le_bytes 8 r ++ le_bytes 8 s) =
      some ⟨(s : Int), (r : Int)⟩ := by
  have hpr : pack_q ((r : Nat) : Int) = some (le_bytes 8 r) := by
    rw [pack_q, if_pos ⟨Int.ofNat_nonneg r, by exact_mod_cast hr⟩,
      Int.toNat_ofNat]
  have hps : pack_q ((s : Nat) : Int) = some (le_bytes 8 s) := by
    rw [pack_q, if_pos ⟨Int.ofNat_nonneg s, by exact_mod_cast hs⟩,
      Int.toNat_ofNat]
  refine ⟨?_, ?_, ?_⟩
  · rw [writer_write]
    rw [show (SizeInfo.mk (s : Int) (r : Int)).records = ((r : Nat) : Int)
      from rfl]
    rw [show (SizeInfo.mk (s : Int) (r : Int)).size = ((s : Nat) : Int)
      from rfl]
    rw [hpr, hps]
  · simp [le_bytes_length]
  · rw [reader_read, take_append_len _ _ _ (le_bytes_length 8 r),
      drop_append_len _ _ _ (le_bytes_length 8 r),
      List.take_of_length_le (le_of_eq (le_bytes_length 8 s)),
      unpack_le_bytes r hr, unpack_le_bytes s hs]

/-- Witness for C6 at `records = 3`, `size = 5`. -/
theorem sizeinfo_codec_roundtrip_witness :
    writer_write ⟨((5 : Nat) : Int), ((3 : Nat) : Int)⟩ =
      some (le_bytes 8 3 ++ le_bytes 8 5) ∧
    (le_bytes 8 3 ++ le_bytes 8 5).length = 16 ∧
    reader_read (le_bytes 8 3 ++ le_bytes 8 5) =
      some ⟨((5 : Nat) : Int), ((3 : Nat) : Int)⟩ :=
  sizeinfo_codec_roundtrip 3 5 (by norm_num) (by norm_num)

/-- The body of `Generator.process_file`'s loop, fuel-indexed, threading
the mutable `self.info` accumulator.  The generator is the trusted fast
scan: it does not range-check keys and treats any failed unpack (short
key or length read) as a fatal, uncaught `struct.error` (`none`);
otherwise it skips `length` value bytes with a relative seek, adds
`length` to `size` and 1 to `records`. -/
def genGo : Nat → List Nat → SizeInfo → Option SizeInfo
  | 0, _, _ => none
  | fuel+1, s, acc =>
    if s.take 8 = [] then some acc
    else
      match unpack_q (s.take 8) with
      | none => none
      | some _ =>
          match unpack_q ((s.drop 8).take 8) with
          | none => none
          | some len =>
              genGo fuel (((s.drop 8).drop 8).drop len)
                ⟨acc.size + (len : Int), acc.records + 1⟩

/-- `Generator.process_file` on one block file's bytes, starting from the
accumulated `self.info`. -/
def gen_process_file (acc : SizeInfo) (s : List Nat) : Option SizeInfo :=
  genGo (s.length + 1) s acc

/-- `Generator.generate` restricted to the per-file scans: fold
`process_file` over the (already filtered) block files of a channel,
starting from the given accumulator. -/
def gen_generate_from (acc : SizeInfo) : List (List Nat) → Option SizeInfo
  | [] => some acc
  | f :: fs =>
      match gen_process_file acc f with
      | none => none
      | some acc2 => gen_generate_from acc2 fs

/-- `Generator.generate` over a channel's block files: a fresh `Generator`
starts from `SizeInfo()` (all zeros). -/
def gen_generate (files : List (List Nat)) : Option SizeInfo :=
  gen_generate_from sizeinfo_zero files

theorem sizeinfo_add_zero (a : SizeInfo) :
    sizeinfo_add a sizeinfo_zero = a := by
  cases a; simp [sizeinfo_add, sizeinfo_zero]

theorem sizeinfo_add_assoc (a b c : SizeInfo) :
    sizeinfo_add (sizeinfo_add a b) c = sizeinfo_add a (sizeinfo_add b c) := by
  cases a; cases b; cases c
  simp [sizeinfo_add]
  constructor <;> ring

theorem sizeinfo_add_comm (a b : SizeInfo) :
    sizeinfo_add a b = sizeinfo_add b a := by
  cases a; cases b
  simp [sizeinfo_add]
  constructor <;> ring

theorem genGo_shift :
    ∀ (fuel : Nat) (s : List Nat) (acc : SizeInfo),
      genGo fuel s acc =
        (genGo fuel s sizeinfo_zero).map (sizeinfo_add acc) := by
  intro fuel
  induction fuel with
  | zero => intro s acc; rfl
  | succ fuel ih =>
      intro s acc
      by_cases hs : s.take 8 = []
      · simp [genGo, hs, sizeinfo_add_zero]
      · simp only [genGo, if_neg hs]
        cases unpack_q (s.take 8) with
        | none => rfl
        | some key =>
            dsimp only
            cases unpack_q ((s.drop 8).take 8) with
            | none => rfl
            | some len =>
                dsimp only
                rw [ih (((s.drop 8).drop 8).drop len)
                  ⟨acc.size + (len : Int), acc.records + 1⟩,
                  ih (((s.drop 8).drop 8).drop len)
                  ⟨sizeinfo_zero.size + (len : Int), sizeinfo_zero.records + 1⟩]
                generalize genGo fuel (((s.drop 8).drop 8).drop len)
                  sizeinfo_zero = g
                cases g with
                | none => rfl
                | some d =>
                    simp only [Option.map, sizeinfo_add, sizeinfo_zero,
                      Option.some.injEq, SizeInfo.mk.injEq]
                    constructor <;> ring

theorem gen_generate_from_shift :
    ∀ (l : List (List Nat)) (acc : SizeInfo),
      gen_generate_from acc l =
        (gen_generate_from sizeinfo_zero l).map (sizeinfo_add acc) := by
  intro l
  induction l with
  | nil => intro acc; simp [gen_generate_from, sizeinfo_add_zero]
  | cons f fs ih =>
      intro acc
      simp only [gen_generate_from]
      rw [show gen_process_file acc f =
          (gen_process_file sizeinfo_zero f).map (sizeinfo_add acc) from
        genGo_shift (f.length + 1) f acc]
      cases hd : gen_process_file sizeinfo_zero f with
      | none => rfl
      | some d =>
          dsimp only [Option.map]
          rw [ih (sizeinfo_add acc d), ih d]
          generalize gen_generate_from sizeinfo_zero fs = g
          cases g with
          | none => rfl
          | some e =>
              dsimp only [Option.map]
              rw [sizeinfo_add_assoc]

theorem gen_generate_from_append :
    ∀ (l₁ l₂ : List (List Nat)) (acc : SizeInfo),
      gen_generate_from acc (l₁ ++ l₂) =
        match gen_generate_from acc l₁ with
        | none => none
        | some a => gen_generate_from a l₂ := by
  intro l₁
  induction l₁ with
  | nil => intro l₂ acc; rfl
  | cons f fs ih =>
      intro l₂ acc
      simp only [List.cons_append, gen_generate_from]
      cases gen_process_file acc f with
      | none => rfl
      | some acc2 => exact ih l₂ acc2

theorem gen_generate_perm :
    ∀ {l l' : List (List Nat)}, l.Perm l' →
      gen_generate l = gen_generate l' := by
  have key : ∀ {l l' : List (List Nat)}, l.Perm l' →
      ∀ acc, gen_generate_from acc l = gen_generate_from acc l' := by
    intro l l' hp
    induction hp with
    | nil => intro acc; rfl
    | cons x _ ih =>
        intro acc
        simp only [gen_generate_from]
        cases gen_process_file acc x with
        | none => rfl
        | some acc2 => exact ih acc2
    | swap x y t =>
        intro acc
        simp only [gen_generate_from]
        rw [show gen_process_file acc y =
            (gen_process_file sizeinfo_zero y).map (sizeinfo_add acc) from
          genGo_shift _ y acc]
        rw [show gen_process_file acc x =
            (gen_process_file sizeinfo_zero x).map (sizeinfo_add acc) from
          genGo_shift _ x acc]
        cases hy : gen_process_file sizeinfo_zero y with
        | none =>
            cases hx : gen_process_file sizeinfo_zero x with
            | none => rfl
            | some dx =>
                dsimp only [Option.map]
                rw [show gen_process_file (sizeinfo_add acc dx) y =
                    (gen_process_file sizeinfo_zero y).map
                      (sizeinfo_add (sizeinfo_add acc dx)) from
                  genGo_shift _ y _, hy]
                rfl
        | some dy =>
            cases hx : gen_process_file sizeinfo_zero x with
            | none =>
                dsimp only [Option.map]
                rw [show gen_process_file (sizeinfo_add acc dy) x =
                    (gen_process_file sizeinfo_zero x).map
                      (sizeinfo_add (sizeinfo_add acc dy)) from
                  genGo_shift _ x _, hx]
                rfl
            | some dx =>
                dsimp only [Option.map]
                rw [show gen_process_file (sizeinfo_add acc dy) x =
                    (gen_process_file sizeinfo_zero x).map
                      (sizeinfo_add (sizeinfo_add acc dy)) from
                  genGo_shift _ x _, hx]
                rw [show gen_process_file (sizeinfo_add acc dx) y =
                    (gen_process_file sizeinfo_zero y).map
                      (sizeinfo_add (sizeinfo_add acc dx)) from
                  genGo_shift _ y _, hy]
                dsimp only [Option.map]
                rw [sizeinfo_add_assoc, sizeinfo_add_assoc,
                  sizeinfo_add_comm dy dx]
    | trans _ _ ih₁ ih₂ =>
        intro acc
        rw [ih₁ acc, ih₂ acc]
  intro l l' hp
  exact key hp sizeinfo_zero

/-- C7: for every partition of a channel's block files into two disjoint
subsets, generating a `SizeInfo` over each subset and adding the two
results equals generating over all the files together, and `SizeInfo`
addition is component-wise (`records` with `records`, `size` with
`size`). -/
theorem gen_generate_partition (chan l₁ l₂ : List (List Nat))
    (a b : SizeInfo) (hperm : (l₁ ++ l₂).Perm chan)
    (h₁ : gen_generate l₁ = some a) (h₂ : gen_generate l₂ = some b) :
    gen_generate chan = some (sizeinfo_add a b) ∧
    sizeinfo_add a b = ⟨a.size + b.size, a.records + b.records⟩ := by
  constructor
  · rw [← gen_generate_perm hperm]
    show gen_generate_from sizeinfo_zero (l₁ ++ l₂) = _
    rw [gen_generate_from_append]
    rw [show gen_generate_from sizeinfo_zero l₁ = some a from h₁]
    dsimp only
    rw [gen_generate_from_shift l₂ a,
      show gen_generate_from sizeinfo_zero l₂ = some b from h₂]
    rfl
  · rfl

/-- Witness for C7: the channel `[f₂, f₁]` is a permutation of
`[f₁] ++ [f₂]`, where `f₁` holds one record of 2 value bytes and `f₂` is
empty. -/
theorem gen_generate_partition_witness :
    gen_generate [([] : List Nat),
        le_bytes 8 1 ++ (le_bytes 8 2 ++ [9, 9])] =
      some (sizeinfo_add ⟨2, 1⟩ ⟨0, 0⟩) ∧
    sizeinfo_add ⟨2, 1⟩ ⟨0, 0⟩ =
      ⟨(⟨2, 1⟩ : SizeInfo).size + (⟨0, 0⟩ : SizeInfo).size,
       (⟨2, 1⟩ : SizeInfo).records + (⟨0, 0⟩ : SizeInfo).records⟩ :=
  gen_generate_partition [([] : List Nat),
      le_bytes 8 1 ++ (le_bytes 8 2 ++ [9, 9])]
    [le_bytes 8 1 ++ (le_bytes 8 2 ++ [9, 9])] [([] : List Nat)]
    ⟨2, 1⟩ ⟨0, 0⟩ (List.Perm.swap _ _ _) (by decide) (by decide)

/-- `SizeInfo.__ne__`: negation of `__eq__`. -/
def sizeinfo_ne (a b : SizeInfo) : Bool := !(sizeinfo_eq a b)

/-- What a `SizeChecker.check` run produces: the process exit code and
the optional stderr report `(expected, real, expected - real)`. -/
structure SizeCheckOutcome where
  exitCode : Nat
  report : Option (SizeInfo × SizeInfo × SizeInfo)
deriving DecidableEq

/-- `SizeChecker.check`, given the freshly generated `expected` and the
sidecar's stored `real`: on `real != expected` it writes
`expected`, `real` and `expected - real` to stderr and exits 1; otherwise
it returns silently and `main` exits 0. -/
def size_checker_check (expected real : SizeInfo) : SizeCheckOutcome :=
  if sizeinfo_ne real expected then
    ⟨1, some (expected, real, sizeinfo_sub expected real)⟩
  else ⟨0, none⟩

theorem sizeinfo_eq_iff (a b : SizeInfo) : sizeinfo_eq a b = true ↔ a = b := by
  cases a; cases b
  simp [sizeinfo_eq, SizeInfo.mk.injEq]

/-- C8: the size-index auditor compares the generated and stored
`SizeInfo` for exact equality: it exits 0 exactly when they are equal, in
which case it emits no report; when they differ it exits 1 and reports
both values together with their component-wise difference
(generated minus stored). -/
theorem size_checker_check_spec (expected real : SizeInfo) :
    ((size_checker_check expected real).exitCode = 0 ↔ real = expected) ∧
    (real = expected → size_checker_check expected real = ⟨0, none⟩) ∧
    (real ≠ expected →
      (size_checker_check expected real).exitCode = 1 ∧
      (size_checker_check expected real).report =
        some (expected, real,
          ⟨expected.size - real.size, expected.records - real.records⟩)) := by
  by_cases h : real = expected
  · have heq : sizeinfo_ne real expected = false := by
      rw [sizeinfo_ne, (sizeinfo_eq_iff real expected).mpr h]
      rfl
    refine ⟨?_, ?_, ?_⟩
    · rw [size_checker_check, heq]; simp [h]
    · intro _; rw [size_checker_check, heq]; rfl
    · intro hc; exact absurd h hc
  · have hne : sizeinfo_ne real expected = true := by
      rw [sizeinfo_ne]
      cases hq : sizeinfo_eq real expected with
      | false => rfl
      | true => exact absurd ((sizeinfo_eq_iff real expected).mp hq) h
    refine ⟨?_, ?_, ?_⟩
    · rw [size_checker_check, hne]; simp [h]
    · intro hc; exact absurd hc h
    · intro _
      rw [size_checker_check, hne]
      exact ⟨rfl, rfl⟩

/-- Witness for C8 at a matching pair and at a mismatching pair. -/
theorem size_checker_check_spec_witness :
    size_checker_check ⟨5, 2⟩ ⟨5, 2⟩ = ⟨0, none⟩ ∧
    ((size_checker_check ⟨5, 2⟩ ⟨3, 1⟩).exitCode = 1 ∧
     (size_checker_check ⟨5, 2⟩ ⟨3, 1⟩).report =
       some (⟨5, 2⟩, ⟨3, 1⟩,
         ⟨(⟨5, 2⟩ : SizeInfo).size - (⟨3, 1⟩ : SizeInfo).size,
          (⟨5, 2⟩ : SizeInfo).records - (⟨3, 1⟩ : SizeInfo).records⟩)) :=
  ⟨(size_checker_check_spec ⟨5, 2⟩ ⟨5, 2⟩).2.1 rfl,
   (size_checker_check_spec ⟨5, 2⟩ ⟨3, 1⟩).2.2 (by decide)⟩

/-- One pass through the validator's `while True` body as a step function
on the loop state `(remaining stream, records_read, errors)`:
`Sum.inl` continues the loop with the next state, `Sum.inr` is the
`break` (taken exactly when the key read returns no bytes) carrying the
final `(records_read, errors)`. -/
def check_loop_body (min_key max_key : Nat) :
    List Nat × Nat × Nat → (List Nat × Nat × Nat) ⊕ (Nat × Nat)
  | (s, records, errors) =>
    if s.take 8 = [] then Sum.inr (records, errors)
    else
      match unpack_q (s.take 8) with
      | none => Sum.inl (s.drop 8, records, errors + 1)
      | some key =>
          if key < min_key ∨ max_key < key then
            Sum.inl (s.drop 8, records, errors + 1)
          else
            match unpack_q ((s.drop 8).take 8) with
            | none => Sum.inl ((s.drop 8).drop 8, records, errors + 1)
            | some len =>
                Sum.inl ((((s.drop 8).drop 8).drop len),
                  records + 1, errors)

/-- Run a loop step function at most `n` times: `Sum.inr` once the loop
has exited, `Sum.inl` if it is still running after `n` steps. -/
def run_loop {α β : Type} (f : α → α ⊕ β) : Nat → α → α ⊕ β
  | 0, a => Sum.inl a
  | n+1, a =>
      match f a with
      | Sum.inl a2 => run_loop f n a2
      | Sum.inr b => Sum.inr b

theorem run_loop_check (min_key max_key : Nat) :
    ∀ (fuel : Nat) (s : List Nat) (r e : Nat), s.length < fuel →
      run_loop (check_loop_body min_key max_key) fuel (s, r, e) =
        Sum.inr (r + (checkGo min_key max_key fuel s).1,
                 e + (checkGo min_key max_key fuel s).2) := by
  intro fuel
  induction fuel with
  | zero => intro s r e h; omega
  | succ fuel ih =>
      intro s r e h
      by_cases hs : s.take 8 = []
      · simp [run_loop, check_loop_body, checkGo, hs]
      · have hlen : 1 ≤ s.length := by
          rcases s with _ | ⟨a, t⟩
          · simp at hs
          · simp
        simp only [run_loop, check_loop_body, checkGo, if_neg hs]
        have h8 : (s.drop 8).length < fuel := by
          simp only [List.length_drop]; omega
        cases unpack_q (s.take 8) with
        | none =>
            dsimp only
            rw [ih (s.drop 8) r (e + 1) h8]
            refine congrArg Sum.inr ?_
            rw [Prod.mk.injEq]
            omega
        | some key =>
            dsimp only
            by_cases hk : key < min_key ∨ max_key < key
            · simp only [if_pos hk]
              rw [ih (s.drop 8) r (e + 1) h8]
              refine congrArg Sum.inr ?_
              rw [Prod.mk.injEq]
              omega
            · simp only [if_neg hk]
              cases unpack_q ((s.drop 8).take 8) with
              | none =>
                  dsimp only
                  rw [ih ((s.drop 8).drop 8) r (e + 1)
                    (by simp only [List.length_drop]; omega)]
                  refine congrArg Sum.inr ?_
                  rw [Prod.mk.injEq]
                  omega
              | some len =>
                  dsimp only
                  rw [ih (((s.drop 8).drop 8).drop len) (r + 1) e
                    (by simp only [List.length_drop]; omega)]
                  refine congrArg Sum.inr ?_
                  rw [Prod.mk.injEq]
                  omega

/-- C9: on any finite stream (reads never raise in this model: a read
returns the available bytes, possibly none), the validator's scan loop
terminates — within `stream length + 1` iterations — with the
`(records_read, errors)` that `check_file` computes, and the loop body
exits exactly when the key read returns no bytes. -/
theorem check_loop_terminates (min_key max_key : Nat) (s : List Nat) :
    (∃ n, n ≤ s.length + 1 ∧
      run_loop (check_loop_body min_key max_key) n (s, 0, 0) =
        Sum.inr (check_file min_key max_key s)) ∧
    (∀ st : List Nat × Nat × Nat,
      (∃ res, check_loop_body min_key max_key st = Sum.inr res) ↔
        st.1.take 8 = []) := by
  constructor
  · refine ⟨s.length + 1, le_refl _, ?_⟩
    rw [run_loop_check min_key max_key (s.length + 1) s 0 0
      (Nat.lt_succ_self _), Nat.zero_add, Nat.zero_add]
    rfl
  · intro ⟨st, records, errors⟩
    constructor
    · intro ⟨res, hres⟩
      by_cases hs : st.take 8 = []
      · exact hs
      · exfalso
        simp only [check_loop_body, if_neg hs] at hres
        cases hq : unpack_q (st.take 8) with
        | none => rw [hq] at hres; simp at hres
        | some key =>
            rw [hq] at hres
            dsimp only at hres
            by_cases hk : key < min_key ∨ max_key < key
            · rw [if_pos hk] at hres; simp at hres
            · rw [if_neg hk] at hres
              cases hq2 : unpack_q ((st.drop 8).take 8) with
              | none => rw [hq2] at hres; simp at hres
              | some len => rw [hq2] at hres; simp at hres
    · intro hs
      exact ⟨(records, errors), by simp [check_loop_body, hs]⟩

/-- Python's `path.split('/')` on the characters of a path: split at every
`'/'`, keeping empty components (so the result is never empty). -/
def split_slash (cs : List Char) : List (List Char) :=
  cs.foldr
    (fun c acc =>
      if c = '/' then [] :: acc
      else
        match acc with
        | [] => [[c]]
        | a :: t => (c :: a) :: t)
    [[]]

/-- The whitespace `int()` strips: space, tab, newline, carriage return,
vertical tab, form feed. -/
def is_py_space (c : Char) : Bool :=
  c = ' ' || c = '\t' || c = '\n' || c = '\r' ||
    c = Char.ofNat 11 || c = Char.ofNat 12

def strip_py_space (cs : List Char) : List Char :=
  ((cs.dropWhile is_py_space).reverse.dropWhile is_py_space).reverse

def is_hex_digit (c : Char) : Bool :=
  ('0' ≤ c && c ≤ '9') || ('a' ≤ c && c ≤ 'f') || ('A' ≤ c && c ≤ 'F')

def hex_digit_val (c : Char) : Nat :=
  if '0' ≤ c && c ≤ '9' then c.toNat - '0'.toNat
  else if 'a' ≤ c && c ≤ 'f' then c.toNat - 'a'.toNat + 10
  else c.toNat - 'A'.toNat + 10

/-- Drop an optional `0x`/`0X` prefix (allowed by `int(s, 16)`). -/
def drop_0x : List Char → List Char
  | '0' :: c :: rest => if c = 'x' || c = 'X' then rest else '0' :: c :: rest
  | cs => cs

/-- A nonempty run of hex digits and its value, `none` otherwise. -/
def hex_digits_val (cs : List Char) : Option Nat :=
  if !cs.isEmpty && cs.all is_hex_digit then
    some (cs.foldl (fun acc c => 16 * acc + hex_digit_val c) 0)
  else none

/-- Python 2's `int(s, 16)`: strip whitespace at both ends, allow one
optional sign, allow an optional `0x`/`0X` prefix, then require a
nonempty run of hex digits; anything else raises `ValueError` (`none`). -/
def py_int_16 (cs : List Char) : Option Int :=
  match strip_py_space cs with
  | '-' :: rest => (hex_digits_val (drop_0x rest)).map (fun n => -(n : Int))
  | '+' :: rest => (hex_digits_val (drop_0x rest)).map (fun n => (n : Int))
  | t => (hex_digits_val (drop_0x t)).map (fun n => (n : Int))

/-- `ConsistencyChecker.check_hexa_fname`: a length mismatch only prints a
warning; the check fails (returns `False`) exactly when `int(fname, 16)`
raises `ValueError`. -/
def check_hexa_fname (fname : List Char) : Bool := (py_int_16 fname).isSome

/-- `path.split('/')[-2:]`: the last two components (or the single
component when the path has no slash). -/
def last_two_components (path : String) : List (List Char) :=
  let parts := split_slash path.toList
  parts.drop (parts.length - 2)

/-- What a call to `ConsistencyChecker.get_range` does: return `None`
(`unresolvable`), return a `(min, max)` pair, or raise an uncaught
`ValueError` out of `int(dirname + fname + '000', 16)` (`raised`). -/
inductive RangeResult where
  | unresolvable : RangeResult
  | range : Int → Int → RangeResult
  | raised : RangeResult
deriving DecidableEq

/-- `ConsistencyChecker.get_range`: take the last two path components;
with fewer than two, warn and return `None`; if either fails
`check_hexa_fname`, return `None`; otherwise compute
`min = int(dirname + fname + '000', 16)` — which raises if the
concatenation itself does not parse — and return `(min, min + 0xfff)`. -/
def get_range (path : String) : RangeResult :=
  match last_two_components path with
  | [dirname, fname] =>
      if check_hexa_fname dirname && check_hexa_fname fname then
        match py_int_16 (dirname ++ (fname ++ ['0', '0', '0'])) with
        | some m => RangeResult.range m (m + 0xfff)
        | none => RangeResult.raised
      else RangeResult.unresolvable
  | _ => RangeResult.unresolvable

theorem split_slash_ne_nil (cs : List Char) : split_slash cs ≠ [] := by
  induction cs with
  | nil => simp [split_slash]
  | cons c rest ih =>
      show (if c = '/' then [] :: split_slash rest
        else
          match split_slash rest with
          | [] => [[c]]
          | a :: t => (c :: a) :: t) ≠ []
      by_cases hc : c = '/'
      · simp [hc]
      · rw [if_neg hc]
        cases split_slash rest with
        | nil => simp
        | cons a t => simp

theorem get_range_eq_of_two (path : String) (d f : List Char)
    (hc : last_two_components path = [d, f]) :
    get_range path =
      (if check_hexa_fname d && check_hexa_fname f then
        match py_int_16 (d ++ (f ++ ['0', '0', '0'])) with
        | some m => RangeResult.range m (m + 0xfff)
        | none => RangeResult.raised
      else RangeResult.unresolvable) := by
  unfold get_range
  rw [hc]

theorem get_range_eq_of_one (path : String) (d : List Char)
    (hc : last_two_components path = [d]) :
    get_range path = RangeResult.unresolvable := by
  unfold get_range
  rw [hc]

theorem last_two_length (path : String) :
    (last_two_components path).length =
      (split_slash path.toList).length -
        ((split_slash path.toList).length - 2) := by
  simp [last_two_components, List.length_drop]

/-- C5 counterexample: on the path with directory component `1` and file
component `-2`, both of the last two components parse as base-16 integers
(`int('1', 16) = 1` and `int('-2', 16) = -2`), yet `get_range` does not
return a `(min_key, max_key)` pair: the concatenation `1-2000` does not
parse, so `int(dirname + fname + '000', 16)` raises an uncaught
`ValueError`. -/
theorem get_range_counterexample :
    last_two_components "1/-2" = [['1'], ['-', '2']] ∧
    check_hexa_fname ['1'] = true ∧
    check_hexa_fname ['-', '2'] = true ∧
    get_range "1/-2" = RangeResult.raised ∧
    (∀ a b : Int, get_range "1/-2" ≠ RangeResult.range a b) ∧
    get_range "1/-2" ≠ RangeResult.unresolvable := by
  refine ⟨by decide, by decide, by decide, by decide, ?_, by decide⟩
  intro a b h
  rw [show get_range "1/-2" = RangeResult.raised by decide] at h
  exact RangeResult.noConfusion h

/-- C5 (amended): the resolver returns `None` exactly when the path
supplies fewer than two components or one of the last two fails to parse
as a base-16 integer; otherwise — length mismatches only warn — provided
the concatenation `dirname + fname + '000'` itself parses (it can fail to
when a component relies on a sign, inner whitespace, or a misplaced hex
prefix), it returns `(min_key, min_key + 0xFFF)` with
`min_key = int(dirname + fname + '000', 16)`, a range of exactly 4096
keys; when the concatenation does not parse, `get_range` raises an
uncaught `ValueError` instead of returning. -/
theorem get_range_resolution (path : String) :
    (get_range path = RangeResult.unresolvable ↔
      (split_slash path.toList).length < 2 ∨
      (∃ d f, last_two_components path = [d, f] ∧
        (check_hexa_fname d = false ∨ check_hexa_fname f = false))) ∧
    (∀ d f m, last_two_components path = [d, f] →
      check_hexa_fname d = true → check_hexa_fname f = true →
      py_int_16 (d ++ (f ++ ['0', '0', '0'])) = some m →
      get_range path = RangeResult.range m (m + 4095)) ∧
    (∀ d f, last_two_components path = [d, f] →
      check_hexa_fname d = true → check_hexa_fname f = true →
      py_int_16 (d ++ (f ++ ['0', '0', '0'])) = none →
      get_range path = RangeResult.raised) := by
  have hparts : split_slash path.toList ≠ [] := split_slash_ne_nil _
  have hpl : (split_slash path.toList).length ≠ 0 := by
    intro hz
    exact hparts (List.eq_nil_of_length_eq_zero hz)
  have hlen2 := last_two_length path
  rcases hc : last_two_components path with _ | ⟨d, rest⟩
  · exfalso
    have h0 : (last_two_components path).length = 0 := by rw [hc]; rfl
    rw [hlen2] at h0
    omega
  · rcases rest with _ | ⟨f, rest2⟩
    · have h1 : (last_two_components path).length = 1 := by rw [hc]; rfl
      rw [hlen2] at h1
      refine ⟨⟨fun _ => Or.inl (by omega), fun _ =>
        get_range_eq_of_one path d hc⟩, ?_, ?_⟩
      · intro d' f' m hdf
        simp at hdf
      · intro d' f' hdf
        simp at hdf
    · rcases rest2 with _ | ⟨x, rest3⟩
      · have h2 : (last_two_components path).length = 2 := by rw [hc]; rfl
        rw [hlen2] at h2
        have hge : ¬(split_slash path.toList).length < 2 := by omega
        have hgr := get_range_eq_of_two path d f hc
        by_cases hd : check_hexa_fname d = true
        · by_cases hf : check_hexa_fname f = true
          · rw [if_pos (by rw [hd, hf]; rfl)] at hgr
            cases hm : py_int_16 (d ++ (f ++ ['0', '0', '0'])) with
            | some m =>
                rw [hm] at hgr
                refine ⟨⟨fun h => ?_, fun h => ?_⟩, ?_, ?_⟩
                · rw [hgr] at h
                  exact RangeResult.noConfusion h
                · exfalso
                  rcases h with h | ⟨d', f', hdf, hor⟩
                  · exact hge h
                  · obtain ⟨rfl, rfl⟩ : d' = d ∧ f' = f := by
                      simpa using hdf.symm
                    rcases hor with h | h
                    · rw [hd] at h; cases h
                    · rw [hf] at h; cases h
                · intro d' f' m' hdf _ _ hm'
                  obtain ⟨rfl, rfl⟩ : d = d' ∧ f = f' := by simpa using hdf
                  rw [hm] at hm'
                  obtain rfl : m = m' := by simpa using hm'
                  exact hgr
                · intro d' f' hdf _ _ hm'
                  obtain ⟨rfl, rfl⟩ : d = d' ∧ f = f' := by simpa using hdf
                  rw [hm] at hm'
                  cases hm'
            | none =>
                rw [hm] at hgr
                refine ⟨⟨fun h => ?_, fun h => ?_⟩, ?_, ?_⟩
                · rw [hgr] at h
                  exact RangeResult.noConfusion h
                · exfalso
                  rcases h with h | ⟨d', f', hdf, hor⟩
                  · exact hge h
                  · obtain ⟨rfl, rfl⟩ : d' = d ∧ f' = f := by
                      simpa using hdf.symm
                    rcases hor with h | h
                    · rw [hd] at h; cases h
                    · rw [hf] at h; cases h
                · intro d' f' m' hdf _ _ hm'
                  obtain ⟨rfl, rfl⟩ : d = d' ∧ f = f' := by simpa using hdf
                  rw [hm] at hm'
                  cases hm'
                · intro d' f' hdf _ _ _
                  exact hgr
          · have hff : check_hexa_fname f = false := by
              cases hq : check_hexa_fname f with
              | false => rfl
              | true => exact absurd hq hf
            rw [if_neg (by rw [hff]; simp)] at hgr
            refine ⟨⟨fun _ => Or.inr ⟨d, f, rfl, Or.inr hff⟩,
              fun _ => hgr⟩, ?_, ?_⟩
            · intro d' f' m hdf _ hf' _
              obtain ⟨rfl, rfl⟩ : d = d' ∧ f = f' := by simpa using hdf
              rw [hff] at hf'
              cases hf'
            · intro d' f' hdf _ hf' _
              obtain ⟨rfl, rfl⟩ : d = d' ∧ f = f' := by simpa using hdf
              rw [hff] at hf'
              cases hf'
        · have hdd : check_hexa_fname d = false := by
            cases hq : check_hexa_fname d with
            | false => rfl
            | true => exact absurd hq hd
          rw [if_neg (by rw [hdd]; simp)] at hgr
          refine ⟨⟨fun _ => Or.inr ⟨d, f, rfl, Or.inl hdd⟩,
            fun _ => hgr⟩, ?_, ?_⟩
          · intro d' f' m hdf hd' _ _
            obtain ⟨rfl, rfl⟩ : d = d' ∧ f = f' := by simpa using hdf
            rw [hdd] at hd'
            cases hd'
          · intro d' f' hdf hd' _ _
            obtain ⟨rfl, rfl⟩ : d = d' ∧ f = f' := by simpa using hdf
            rw [hdd] at hd'
            cases hd'
      · exfalso
        have h3 : 3 ≤ (last_two_components path).length := by
          rw [hc]; simp
        rw [hlen2] at h3
        omega

/-- Witness for C5 (amended) on the path `0000000052/125`: both
components parse, the concatenation parses to `0x52125000`, and the
resolver returns the 4096-key range. -/
theorem get_range_resolution_witness :
    get_range "0000000052/125" =
      RangeResult.range 0x52125000 (0x52125000 + 4095) :=
  (get_range_resolution "0000000052/125").2.1
    "0000000052".toList "125".toList 0x52125000
    (by decide) (by decide) (by decide) (by decide)
